/-
Verification of the session-cache module `web3/_utils/request.py`.

The module's core is `SessionCache`: a bounded mapping backed by a Python
`OrderedDict`, with FIFO eviction of untouched keys.  We embed the
`OrderedDict` as an association list kept in insertion order (head =
oldest entry, last = most recently inserted).  Python's
`OrderedDict.popitem(last=False)` removes the head and raises `KeyError`
on an empty dict, so the operations that can reach it return `Option`
(`none` models the raised exception, discarding the partially mutated
state just as an uncaught exception does for the caller).

The async layer (`cache_async_session`, `get_async_session`) awaits the
`close()` of every evicted session; we record those awaits as an explicit
trace together with a success flag (`false` = some close raised, closes
after the first failing one are not attempted).
-/
import Mathlib

set_option autoImplicit false

namespace Web3Request

variable {V : Type}

/-- Membership test of a key in an `OrderedDict` embedded as an association
list (`key in self._data`). -/
def odMem (k : String) : List (String × V) → Bool
  | [] => false
  | p :: rest => if p.1 = k then true else odMem k rest

/-- Lookup `self._data[key]`: value of the first (and, with no duplicate keys,
only) entry with key `k`; `none` models the raised `KeyError`. -/
def odGet : List (String × V) → String → Option V
  | [], _ => none
  | p :: rest, k => if p.1 = k then some p.2 else odGet rest k

/-- Assignment `self._data[key] = value` on an `OrderedDict`: if the key is present its
value is overwritten in place (insertion position unchanged), otherwise the
new pair is appended as the most recently inserted entry. -/
def odSet (d : List (String × V)) (k : String) (v : V) : List (String × V) :=
  if odMem k d then d.map (fun p => if p.1 = k then (k, v) else p)
  else d ++ [(k, v)]

/-- The state of `SessionCache.__init__`: capacity `_size` (a Python `int`,
hence `Int`) and the backing `OrderedDict` `_data`. -/
structure SessionCache (V : Type) where
  _size : Int
  _data : List (String × V)
  deriving DecidableEq

/-- The `while len(self._data) >= self._size: ... self._data.popitem(last=False)`
loop of `SessionCache.cache`: repeatedly pops the oldest entry, accumulating
the popped entries (the `evicted_items` dict, in eviction order).  `none`
models the `KeyError` that `popitem` raises on an empty dict. -/
def evictLoop (size : Int) (d acc : List (String × V)) :
    Option (List (String × V) × List (String × V)) :=
  if (d.length : Int) ≥ size then
    match d with
    | [] => none
    | x :: rest => evictLoop size rest (acc ++ [x])
  else some (acc, d)

/-- Method `SessionCache.cache(key, value)`: if the key is already present just
update it (no eviction); otherwise evict oldest entries while at or over
capacity, then insert.  Returns the new state and `evicted_items`
(`none` = Python `None`, i.e. the loop body never ran). -/
def SessionCache.cache (c : SessionCache V) (key : String) (value : V) :
    Option (SessionCache V × Option (List (String × V))) :=
  if odMem key c._data then
    some ({ c with _data := odSet c._data key value }, none)
  else
    match evictLoop c._size c._data [] with
    | none => none
    | some (ev, d2) =>
        some ({ c with _data := odSet d2 key value },
              if ev.isEmpty then none else some ev)

/-- Method `SessionCache.get_cache_entry(key)`: read-only lookup in `_data`;
`none` models the raised `KeyError`. -/
def SessionCache.get_cache_entry (c : SessionCache V) (key : String) : Option V :=
  odGet c._data key

/-- Membership test `SessionCache.__contains__`. -/
def SessionCache.contains (c : SessionCache V) (item : String) : Bool :=
  odMem item c._data

/-- Length `SessionCache.__len__`. -/
def SessionCache.len (c : SessionCache V) : Nat :=
  c._data.length

/-- A sequence of `cache` (put) calls, propagating the possible `KeyError`
of each call. -/
def putAll (c : SessionCache V) : List (String × V) → Option (SessionCache V)
  | [] => some c
  | p :: rest =>
    match c.cache p.1 p.2 with
    | none => none
    | some q => putAll q.1 rest

/-- Function `get_default_http_endpoint()`: `os.environ.get` with a fallback, with the
process environment passed explicitly. -/
def get_default_http_endpoint (environ : String → Option String) : String :=
  (environ "WEB3_HTTP_PROVIDER_URI").getD "http://localhost:8545"

/-- Modelled from the spec: `generate_cache_key` lives in
`web3/_utils/caching.py`, which is not under `src/`; the spec only requires
it to be a deterministic derivation from the endpoint URI to a string key,
so it is modelled as an arbitrary function parameter of this type. -/
abbrev GenKey : Type := String → String

/-- The `for key, session in evicted_items.items(): await session.close()`
loop of `cache_async_session`, with `closeOk s = false` meaning the awaited
`close()` of session `s` raises.  Returns the sessions whose close was
awaited, in order, and `true` iff every awaited close succeeded (after a
raising close the remaining closes are not attempted). -/
def awaitCloses (closeOk : V → Bool) : List V → List V × Bool
  | [] => ([], true)
  | s :: rest =>
    if closeOk s then
      let r := awaitCloses closeOk rest
      (s :: r.1, r.2)
    else ([s], false)

/-- Function `cache_async_session(endpoint_uri, session)`: derive the cache key,
call `SessionCache.cache` on the async cache state (passed explicitly in
place of the module-level `_async_session_cache`), then await the close of
every evicted session.  Returns the new cache state, the close trace and
the success flag; the state component is computed before any close is
awaited, mirroring the statement order of the source. -/
def cache_async_session (genKey : GenKey) (closeOk : V → Bool)
    (c : SessionCache V) (endpoint_uri : String) (session : V) :
    Option (SessionCache V × List V × Bool) :=
  let cache_key := genKey endpoint_uri
  match c.cache cache_key session with
  | none => none
  | some (c2, evicted_items) =>
    match evicted_items with
    | none => some (c2, [], true)
    | some ev =>
      let r := awaitCloses closeOk (ev.map Prod.snd)
      some (c2, r.1, r.2)

/-- Function `get_async_session(endpoint_uri)`: on a miss, construct a fresh session
(the factory `newSession` applied to a construction counter, which counts
sessions built) and insert it via `cache_async_session`; then return the
entry resident at the key.  A raising close in `cache_async_session`
propagates (modelled as `none`). -/
def get_async_session (genKey : GenKey) (newSession : Nat → V) (closeOk : V → Bool)
    (c : SessionCache V) (cnt : Nat) (endpoint_uri : String) :
    Option ((SessionCache V × Nat × List V × Bool) × V) :=
  let cache_key := genKey endpoint_uri
  if c.contains cache_key then
    (c.get_cache_entry cache_key).map fun v => ((c, cnt, [], true), v)
  else
    match cache_async_session genKey closeOk c endpoint_uri (newSession cnt) with
    | none => none
    | some (c2, tr, ok) =>
      if ok then
        (c2.get_cache_entry cache_key).map fun v => ((c2, cnt + 1, tr, ok), v)
      else none

/-- Modelled from the spec: the synchronous session cache `_session_cache`
is an instance of the external `lru` package's `LRU` structure ("a
library-level LRU structure", spec §5), which is not part of this
repository.  Entries are kept most-recently-used first; setting a key
makes it most recent and truncates to capacity, getting a key promotes it. -/
structure LRU (V : Type) where
  cap : Nat
  entries : List (String × V)
  deriving DecidableEq

/-- Test `key in lru_cache` for the modelled external LRU structure. -/
def lruContains (l : LRU V) (k : String) : Bool :=
  odMem k l.entries

/-- Assignment `lru_cache[key] = value` for the modelled external LRU structure: the
key becomes most recent and the structure is truncated to capacity. -/
def lruSet (l : LRU V) (k : String) (v : V) : LRU V :=
  { l with entries := ((k, v) :: l.entries.filter (fun p => p.1 ≠ k)).take l.cap }

/-- Access `lru_cache[key]` for the modelled external LRU structure: returns the
value and the structure with the key promoted to most recent; `none` models
the raised `KeyError`. -/
def lruGet (l : LRU V) (k : String) : Option (V × LRU V) :=
  (odGet l.entries k).map fun v =>
    (v, { l with entries := (k, v) :: l.entries.filter (fun p => p.1 ≠ k) })

/-- Function `get_session(endpoint_uri)`: on a miss construct a fresh session and
store it, then return `_session_cache[cache_key]`.  The construction
counter `cnt` counts sessions built by the factory. -/
def get_session (genKey : GenKey) (newSession : Nat → V) (st : LRU V)
    (cnt : Nat) (endpoint_uri : String) : Option ((LRU V × Nat) × V) :=
  let cache_key := genKey endpoint_uri
  let p := if lruContains st cache_key then (st, cnt)
           else (lruSet st cache_key (newSession cnt), cnt + 1)
  (lruGet p.1 cache_key).map fun q => ((q.2, p.2), q.1)

end Web3Request

namespace Web3Request

variable {V : Type}

theorem odMem_iff_mem_keys (k : String) (d : List (String × V)) :
    odMem k d = true ↔ k ∈ d.map Prod.fst := by
  induction d with
  | nil => simp [odMem]
  | cons p rest ih =>
    by_cases h : p.1 = k
    · simp [odMem, h]
    · rw [odMem, if_neg h, List.map_cons, List.mem_cons, ih]
      constructor
      · exact fun hm => Or.inr hm
      · rintro (hk | hm)
        · exact absurd hk.symm h
        · exact hm

theorem odMem_false_iff (k : String) (d : List (String × V)) :
    odMem k d = false ↔ k ∉ d.map Prod.fst := by
  rw [← odMem_iff_mem_keys]
  cases odMem k d <;> simp

theorem odGet_eq_none_of_not_mem {k : String} {d : List (String × V)}
    (h : odMem k d = false) : odGet d k = none := by
  induction d with
  | nil => simp [odGet]
  | cons p rest ih =>
    rw [odMem] at h
    by_cases hp : p.1 = k
    · simp [hp] at h
    · rw [odGet, if_neg hp]
      exact ih (by simpa [hp] using h)

theorem odMem_of_odGet_some {k : String} {d : List (String × V)} {v : V}
    (h : odGet d k = some v) : odMem k d = true := by
  by_cases hm : odMem k d = true
  · exact hm
  · rw [odGet_eq_none_of_not_mem (by simpa using hm)] at h
    exact absurd h (by simp)

theorem odGet_append_single {k : String} {d : List (String × V)} {v : V}
    (h : odMem k d = false) : odGet (d ++ [(k, v)]) k = some v := by
  induction d with
  | nil => simp [odGet]
  | cons p rest ih =>
    rw [odMem] at h
    by_cases hp : p.1 = k
    · simp [hp] at h
    · rw [List.cons_append, odGet, if_neg hp]
      exact ih (by simpa [hp] using h)

theorem odGet_map_update {k : String} (d : List (String × V)) (v : V)
    (h : odMem k d = true) :
    odGet (d.map fun p => if p.1 = k then (k, v) else p) k = some v := by
  induction d with
  | nil => simp [odMem] at h
  | cons p rest ih =>
    rw [odMem] at h
    by_cases hp : p.1 = k
    · simp [odGet, hp]
    · rw [List.map_cons, if_neg hp, odGet, if_neg hp]
      exact ih (by simpa [hp] using h)

theorem odGet_odSet_self (d : List (String × V)) (k : String) (v : V) :
    odGet (odSet d k v) k = some v := by
  rw [odSet]
  by_cases h : odMem k d = true
  · rw [if_pos h]
    exact odGet_map_update d v h
  · rw [if_neg h]
    exact odGet_append_single (by simpa using h)

theorem odSet_keys_of_mem {k : String} {d : List (String × V)} (v : V)
    (h : odMem k d = true) :
    (odSet d k v).map Prod.fst = d.map Prod.fst := by
  rw [odSet, if_pos h, List.map_map]
  refine List.map_congr_left ?_
  intro p _
  by_cases hp : p.1 = k
  · simp [Function.comp, hp]
  · simp [Function.comp, hp]

theorem odSet_eq_append_of_not_mem {k : String} {d : List (String × V)} (v : V)
    (h : odMem k d = false) : odSet d k v = d ++ [(k, v)] := by
  rw [odSet, if_neg (by simp [h])]

theorem odMem_false_of_sublist {k : String} {d d2 : List (String × V)}
    (hs : d2.Sublist d) (h : odMem k d = false) : odMem k d2 = false := by
  rw [odMem_false_iff] at h ⊢
  exact fun hk => h (List.map_subset Prod.fst hs.subset hk)

end Web3Request

namespace Web3Request

variable {V : Type}

theorem evictLoop_none_of_nonpos {size : Int} (hsize : size ≤ 0) :
    ∀ (d acc : List (String × V)), evictLoop size d acc = none := by
  intro d
  induction d with
  | nil =>
    intro acc
    rw [evictLoop, if_pos (by simpa using hsize)]
  | cons x rest ih =>
    intro acc
    rw [evictLoop, if_pos (by simp only [List.length_cons]; push_cast; omega)]
    exact ih (acc ++ [x])

theorem evictLoop_spec (cap : Nat) (hcap : 1 ≤ cap) :
    ∀ (d acc : List (String × V)),
      evictLoop (cap : Int) d acc =
        some (acc ++ d.take (d.length + 1 - cap), d.drop (d.length + 1 - cap)) := by
  intro d
  induction d with
  | nil =>
    intro acc
    rw [evictLoop, if_neg (by simp; omega)]
    simp [Nat.sub_eq_zero_of_le hcap]
  | cons x rest ih =>
    intro acc
    by_cases h : cap ≤ rest.length + 1
    · rw [evictLoop, if_pos (by simp; omega), ih (acc ++ [x])]
      have hidx : rest.length + 1 + 1 - cap = (rest.length + 1 - cap) + 1 := by omega
      simp only [List.length_cons, hidx, List.take_succ_cons, List.drop_succ_cons,
        List.append_assoc, List.singleton_append]
    · rw [evictLoop, if_neg (by simp; omega)]
      have hidx : rest.length + 1 + 1 - cap = 0 := by omega
      simp [hidx]

theorem cache_of_mem {c : SessionCache V} {key : String} (value : V)
    (h : odMem key c._data = true) :
    c.cache key value = some ({ c with _data := odSet c._data key value }, none) := by
  rw [SessionCache.cache, if_pos h]

theorem cache_of_new_below {cap : Nat} {d : List (String × V)} {key : String}
    (value : V) (h : odMem key d = false) (hlen : d.length < cap) :
    (SessionCache.mk (cap : Int) d).cache key value =
      some (⟨(cap : Int), d ++ [(key, value)]⟩, none) := by
  have hcap : 1 ≤ cap := by omega
  rw [SessionCache.cache, if_neg (by simp [h]), evictLoop_spec cap hcap]
  have hidx : d.length + 1 - cap = 0 := by omega
  simp [hidx, odSet_eq_append_of_not_mem value h]

theorem cache_of_new_full {cap : Nat} {d : List (String × V)} {key : String}
    (value : V) (hcap : 1 ≤ cap) (h : odMem key d = false) (hlen : cap ≤ d.length) :
    (SessionCache.mk (cap : Int) d).cache key value =
      some (⟨(cap : Int), d.drop (d.length + 1 - cap) ++ [(key, value)]⟩,
            some (d.take (d.length + 1 - cap))) := by
  rw [SessionCache.cache, if_neg (by simp [h]), evictLoop_spec cap hcap]
  have hdrop : odMem key (d.drop (d.length + 1 - cap)) = false :=
    odMem_false_of_sublist (List.drop_sublist _ _) h
  have htake : (d.take (d.length + 1 - cap)).isEmpty = false := by
    obtain ⟨n, hn⟩ : ∃ n, d.length + 1 - cap = n + 1 := ⟨d.length - cap, by omega⟩
    cases d with
    | nil => simp only [List.length_nil] at hlen; omega
    | cons x rest => rw [hn, List.take_succ_cons]; rfl
  simp [odSet_eq_append_of_not_mem value hdrop, htake]

end Web3Request

namespace Web3Request

variable {V : Type}

theorem cache_isSome {c : SessionCache V} (key : String) (value : V)
    (hsize : 1 ≤ c._size) : (c.cache key value).isSome = true := by
  by_cases hm : odMem key c._data = true
  · rw [cache_of_mem value hm]; rfl
  · have hm2 : odMem key c._data = false := by simpa using hm
    have hcast : ((c._size.toNat : Nat) : Int) = c._size :=
      Int.toNat_of_nonneg (by omega)
    have hcap : 1 ≤ c._size.toNat := by omega
    rw [SessionCache.cache, if_neg (by simp [hm2]), ← hcast,
      evictLoop_spec c._size.toNat hcap]
    rfl

theorem cache_data_shape {c c' : SessionCache V} {key : String} {value : V}
    {ev : Option (List (String × V))}
    (h : c.cache key value = some (c', ev)) :
    ∃ d2, c'._data = odSet d2 key value ∧ c'._size = c._size := by
  rw [SessionCache.cache] at h
  by_cases hm : odMem key c._data = true
  · rw [if_pos hm] at h
    refine ⟨c._data, ?_, ?_⟩ <;> injection h with h1 <;>
      injection h1 with h2 h3 <;> rw [← h2]
  · rw [if_neg hm] at h
    cases hE : evictLoop c._size c._data [] with
    | none => rw [hE] at h; exact absurd h (by simp)
    | some q =>
      rw [hE] at h
      refine ⟨q.2, ?_, ?_⟩ <;> injection h with h1 <;>
        injection h1 with h2 h3 <;> rw [← h2]

theorem cache_evicted_inv {c c' : SessionCache V} {key : String} {value : V}
    {ev : List (String × V)}
    (h : c.cache key value = some (c', some ev)) :
    odMem key c._data = false ∧ 1 ≤ c._size ∧
      ∃ n, 1 ≤ n ∧ n ≤ c._data.length ∧ ev = c._data.take n ∧
        c'._data = c._data.drop n ++ [(key, value)] ∧ c'._size = c._size := by
  by_cases hm : odMem key c._data = true
  · rw [cache_of_mem value hm] at h
    injection h with h1
    injection h1 with h2 h3
    exact absurd h3 (by simp)
  · have hm2 : odMem key c._data = false := by simpa using hm
    by_cases hs : 1 ≤ c._size
    · have hcast : ((c._size.toNat : Nat) : Int) = c._size :=
        Int.toNat_of_nonneg (by omega)
      have hcap : 1 ≤ c._size.toNat := by omega
      set n := c._data.length + 1 - c._size.toNat with hn
      have hcache : c.cache key value =
          some ({ c with _data := odSet (c._data.drop n) key value },
                if (c._data.take n).isEmpty then none
                else some (c._data.take n)) := by
        rw [SessionCache.cache, if_neg hm, ← hcast, evictLoop_spec c._size.toNat hcap]
        rfl
      rw [hcache] at h
      cases hemp : (c._data.take n).isEmpty with
      | true =>
        rw [hemp, if_pos rfl] at h
        injection h with h1
        injection h1 with h2 h3
        exact absurd h3 (by simp)
      | false =>
        rw [hemp, if_neg (by simp)] at h
        injection h with h1
        injection h1 with h2 h3
        injection h3 with h4
        have hn1 : 1 ≤ n := by
          rcases Nat.eq_zero_or_pos n with h0 | h0
          · rw [h0, List.take_zero] at hemp
            exact absurd hemp (by simp)
          · exact h0
        have hdropmem : odMem key (c._data.drop n) = false :=
          odMem_false_of_sublist (List.drop_sublist _ _) hm2
        refine ⟨hm2, hs, n, hn1, by omega, h4.symm, ?_, ?_⟩
        · rw [← h2]
          exact odSet_eq_append_of_not_mem value hdropmem
        · rw [← h2]
    · rw [SessionCache.cache, if_neg hm,
        evictLoop_none_of_nonpos (by omega) _ _] at h
      exact absurd h (by simp)

end Web3Request

namespace Web3Request

variable {V : Type}

theorem putAll_spec (cap : Nat) (hcap : 1 ≤ cap) :
    ∀ (ps d : List (String × V)), ((d ++ ps).map Prod.fst).Nodup →
      d.length ≤ cap →
      putAll (SessionCache.mk (cap : Int) d) ps =
        some ⟨(cap : Int), (d ++ ps).drop (d.length + ps.length - cap)⟩ := by
  intro ps
  induction ps with
  | nil =>
    intro d hnd hlen
    rw [putAll]
    simp [Nat.sub_eq_zero_of_le hlen]
  | cons p rest ih =>
    intro d hnd hlen
    have hfresh : odMem p.1 d = false := by
      rw [odMem_false_iff]
      intro hmem
      rw [List.map_append] at hnd
      exact (List.nodup_append.mp hnd).2.2 hmem (by simp)
    by_cases hfull : d.length < cap
    · have hstep : putAll (SessionCache.mk (cap : Int) d) (p :: rest) =
          putAll ⟨(cap : Int), d ++ [p]⟩ rest := by
        rw [putAll, cache_of_new_below p.2 hfresh hfull]
      have hnd2 : (((d ++ [p]) ++ rest).map Prod.fst).Nodup := by
        rw [List.append_assoc, List.singleton_append]
        exact hnd
      have hlen2 : (d ++ [p]).length ≤ cap := by
        simp only [List.length_append, List.length_cons, List.length_nil]
        omega
      rw [hstep, ih (d ++ [p]) hnd2 hlen2]
      have hidx : (d ++ [p]).length + rest.length - cap =
          d.length + (p :: rest).length - cap := by
        simp only [List.length_append, List.length_cons, List.length_nil]
        omega
      rw [hidx, List.append_assoc, List.singleton_append]
    · have heq : d.length = cap := by omega
      cases d with
      | nil =>
        rw [List.length_nil] at heq
        omega
      | cons y d₀ =>
        simp only [List.length_cons] at heq
        have hstep : putAll (SessionCache.mk (cap : Int) (y :: d₀)) (p :: rest) =
            putAll ⟨(cap : Int), d₀ ++ [p]⟩ rest := by
          rw [putAll,
            cache_of_new_full p.2 hcap hfresh (by simp only [List.length_cons]; omega)]
          have h1 : (y :: d₀).length + 1 - cap = 1 := by
            simp only [List.length_cons]
            omega
          rw [h1]
          rfl
        have hnd2 : (((d₀ ++ [p]) ++ rest).map Prod.fst).Nodup := by
          rw [List.append_assoc, List.singleton_append]
          rw [List.cons_append, List.map_cons] at hnd
          exact hnd.of_cons
        have hlen2 : (d₀ ++ [p]).length ≤ cap := by
          simp only [List.length_append, List.length_cons, List.length_nil]
          omega
        rw [hstep, ih (d₀ ++ [p]) hnd2 hlen2]
        have hidx1 : (d₀ ++ [p]).length + rest.length - cap = rest.length := by
          simp only [List.length_append, List.length_cons, List.length_nil]
          omega
        have hidx2 : (y :: d₀).length + (p :: rest).length - cap = rest.length + 1 := by
          simp only [List.length_cons]
          omega
        rw [hidx1, hidx2, List.append_assoc, List.singleton_append, List.cons_append,
          List.drop_succ_cons]

end Web3Request

namespace Web3Request

variable {V : Type}

/-- C1: for every sequence of put (`SessionCache.cache`) calls with
pairwise-distinct keys whose count exceeds the capacity fixed at
construction (capacity ≥ 1), after the sequence completes the cache's size
equals the capacity and the resident keys are exactly the capacity
most-recently-inserted distinct keys, in insertion order. -/
theorem c1_distinct_puts_keep_last_capacity_keys (cap : Nat) (ps : List (String × V))
    (hcap : 1 ≤ cap) (hnd : (ps.map Prod.fst).Nodup) (hlen : cap < ps.length) :
    ∃ c : SessionCache V,
      putAll (SessionCache.mk (cap : Int) []) ps = some c ∧
      c.len = cap ∧
      c._data.map Prod.fst = (ps.map Prod.fst).drop (ps.length - cap) := by
  refine ⟨⟨(cap : Int), ps.drop (ps.length - cap)⟩, ?_, ?_, ?_⟩
  · have h := putAll_spec cap hcap ps [] (by simpa using hnd) (by simp)
    simpa using h
  · show (ps.drop (ps.length - cap)).length = cap
    rw [List.length_drop]
    omega
  · exact List.map_drop Prod.fst ps (ps.length - cap)

/-- C1 witness: capacity 2, three distinct keys. -/
theorem c1_witness :
    ∃ c : SessionCache Nat,
      putAll (SessionCache.mk ((2 : Nat) : Int) [])
          [("a", 10), ("b", 20), ("c", 30)] = some c ∧
      c.len = 2 ∧
      c._data.map Prod.fst =
        (([("a", 10), ("b", 20), ("c", 30)] : List (String × Nat)).map Prod.fst).drop
          (([("a", 10), ("b", 20), ("c", 30)] : List (String × Nat)).length - 2) :=
  c1_distinct_puts_keep_last_capacity_keys 2 [("a", 10), ("b", 20), ("c", 30)]
    (by decide) (by decide) (by decide)

/-- C2: eviction is strict FIFO among keys never re-inserted: in a
capacity-2 cache, put(A), put(B), put(C) with distinct keys makes the third
call return the eviction mapping containing exactly A with its value, and
leaves B and C (in that order) resident. -/
theorem c2_fifo_eviction_capacity_two (A B C : String) (vA vB vC : V)
    (hAB : A ≠ B) (hAC : A ≠ C) (hBC : B ≠ C) :
    (SessionCache.mk ((2 : Nat) : Int) []).cache A vA =
      some (⟨((2 : Nat) : Int), [(A, vA)]⟩, none) ∧
    (SessionCache.mk ((2 : Nat) : Int) [(A, vA)]).cache B vB =
      some (⟨((2 : Nat) : Int), [(A, vA), (B, vB)]⟩, none) ∧
    (SessionCache.mk ((2 : Nat) : Int) [(A, vA), (B, vB)]).cache C vC =
      some (⟨((2 : Nat) : Int), [(B, vB), (C, vC)]⟩, some [(A, vA)]) ∧
    ([(B, vB), (C, vC)] : List (String × V)).map Prod.fst = [B, C] := by
  refine ⟨?_, ?_, ?_, rfl⟩
  · rw [cache_of_new_below vA (by simp [odMem]) (by simp)]
    rfl
  · rw [cache_of_new_below vB (by simp [odMem, hAB]) (by simp)]
    rfl
  · rw [cache_of_new_full vC (by omega) (by simp [odMem, hAC, hBC]) (by simp)]
    rfl

/-- C2 witness: concrete keys and values. -/
theorem c2_witness :
    (SessionCache.mk ((2 : Nat) : Int) ([] : List (String × Nat))).cache "a" 1 =
      some (⟨((2 : Nat) : Int), [("a", 1)]⟩, none) ∧
    (SessionCache.mk ((2 : Nat) : Int) [("a", 1)]).cache "b" 2 =
      some (⟨((2 : Nat) : Int), [("a", 1), ("b", 2)]⟩, none) ∧
    (SessionCache.mk ((2 : Nat) : Int) [("a", 1), ("b", 2)]).cache "c" 3 =
      some (⟨((2 : Nat) : Int), [("b", 2), ("c", 3)]⟩, some [("a", 1)]) ∧
    ([("b", 2), ("c", 3)] : List (String × Nat)).map Prod.fst = ["b", "c"] :=
  c2_fifo_eviction_capacity_two "a" "b" "c" 1 2 3
    (by decide) (by decide) (by decide)

/-- C3: putting a key already present overwrites its value in place,
returns the no-eviction marker regardless of current size, keeps the size,
and keeps every key's position (no promotion to most-recent). -/
theorem c3_reinsert_existing_key_no_eviction (c : SessionCache V)
    (key : String) (value : V) (h : c.contains key = true) :
    ∃ c2 : SessionCache V,
      c.cache key value = some (c2, none) ∧
      c2.get_cache_entry key = some value ∧
      c2.len = c.len ∧
      c2._data.map Prod.fst = c._data.map Prod.fst := by
  rw [SessionCache.contains] at h
  refine ⟨{ c with _data := odSet c._data key value },
    cache_of_mem value h, odGet_odSet_self _ _ _, ?_, odSet_keys_of_mem value h⟩
  show (odSet c._data key value).length = c._data.length
  rw [odSet, if_pos h, List.length_map]

/-- C3 witness: overwrite "a" in a full capacity-2 cache. -/
theorem c3_witness :
    ∃ c2 : SessionCache Nat,
      (SessionCache.mk 2 [("a", 1), ("b", 2)]).cache "a" 9 = some (c2, none) ∧
      c2.get_cache_entry "a" = some 9 ∧
      c2.len = (SessionCache.mk 2 [("a", 1), ("b", 2)]).len ∧
      c2._data.map Prod.fst =
        (SessionCache.mk 2 [("a", 1), ("b", 2)])._data.map Prod.fst :=
  c3_reinsert_existing_key_no_eviction
    (SessionCache.mk 2 [("a", 1), ("b", 2)]) "a" 9 (by decide)

/-- C4: a get (`get_cache_entry`) right after a successful put of a key
returns the exact value inserted, and a get of any key not in the cache
fails with the key-not-found error (modelled as `none`); `get_cache_entry`
is a pure read of `_data` (no promote-on-read by construction). -/
theorem c4_get_after_put_and_keynotfound :
    (∀ (c c2 : SessionCache V) (key : String) (value : V)
        (ev : Option (List (String × V))),
        c.cache key value = some (c2, ev) →
        c2.get_cache_entry key = some value) ∧
    (∀ (c : SessionCache V) (key : String),
        c.contains key = false → c.get_cache_entry key = none) := by
  constructor
  · intro c c2 key value ev h
    obtain ⟨d2, hd, _⟩ := cache_data_shape h
    rw [SessionCache.get_cache_entry, hd]
    exact odGet_odSet_self d2 key value
  · intro c key h
    rw [SessionCache.contains] at h
    exact odGet_eq_none_of_not_mem h

/-- C4 witness: get after put, and get of an absent key. -/
theorem c4_witness :
    (SessionCache.mk (V := Nat) 2 [("a", 1)]).cache "b" 7 =
        some (⟨2, [("a", 1), ("b", 7)]⟩, none) ∧
    (⟨2, [("a", 1), ("b", 7)]⟩ : SessionCache Nat).get_cache_entry "b" = some 7 ∧
    (SessionCache.mk (V := Nat) 2 [("a", 1)]).get_cache_entry "zz" = none :=
  ⟨by decide,
   c4_get_after_put_and_keynotfound.1 (SessionCache.mk 2 [("a", 1)])
     ⟨2, [("a", 1), ("b", 7)]⟩ "b" 7 none (by decide),
   c4_get_after_put_and_keynotfound.2 (SessionCache.mk 2 [("a", 1)]) "zz" (by decide)⟩

/-- C5: putting a new key while the cache is at or above capacity evicts
oldest entries one at a time until the size is below capacity (so one put
may evict several entries), returns all of them in the eviction mapping in
eviction order, and inserts the new entry as most-recent; the resulting
size is exactly the capacity. -/
theorem c5_eviction_loop_until_below_capacity (cap : Nat)
    (d : List (String × V)) (key : String) (value : V) (hcap : 1 ≤ cap)
    (hmem : odMem key d = false) (hfull : cap ≤ d.length) :
    (SessionCache.mk (cap : Int) d).cache key value =
      some (⟨(cap : Int), d.drop (d.length + 1 - cap) ++ [(key, value)]⟩,
            some (d.take (d.length + 1 - cap))) ∧
    1 ≤ d.length + 1 - cap ∧
    (⟨(cap : Int), d.drop (d.length + 1 - cap) ++ [(key, value)]⟩ :
        SessionCache V).len = cap := by
  refine ⟨cache_of_new_full value hcap hmem hfull, by omega, ?_⟩
  show (d.drop (d.length + 1 - cap) ++ [(key, value)]).length = cap
  rw [List.length_append, List.length_drop]
  simp only [List.length_cons, List.length_nil]
  omega

/-- C5 witness: capacity 1 with two resident entries evicts both in one put. -/
theorem c5_witness :
    (SessionCache.mk ((1 : Nat) : Int) [("x", 5), ("y", 6)]).cache "z" 7 =
      some (⟨((1 : Nat) : Int),
              ([("x", 5), ("y", 6)] : List (String × Nat)).drop
                (([("x", 5), ("y", 6)] : List (String × Nat)).length + 1 - 1) ++
                [("z", 7)]⟩,
            some (([("x", 5), ("y", 6)] : List (String × Nat)).take
              (([("x", 5), ("y", 6)] : List (String × Nat)).length + 1 - 1))) ∧
    1 ≤ ([("x", 5), ("y", 6)] : List (String × Nat)).length + 1 - 1 ∧
    (⟨((1 : Nat) : Int),
        ([("x", 5), ("y", 6)] : List (String × Nat)).drop
          (([("x", 5), ("y", 6)] : List (String × Nat)).length + 1 - 1) ++
          [("z", 7)]⟩ : SessionCache Nat).len = 1 :=
  c5_eviction_loop_until_below_capacity 1 [("x", 5), ("y", 6)] "z" 7
    (by decide) (by decide) (by decide)

/-- C10: `SessionCache.cache` never raises when the cache was constructed
with size ≥ 1; the precondition is necessary: with size ≤ 0, a put of a
new key on the empty cache reaches `popitem` on an empty `OrderedDict`,
which raises. -/
theorem c10_cache_total_iff_positive_size :
    (∀ (c : SessionCache V) (key : String) (value : V),
        1 ≤ c._size → (c.cache key value).isSome = true) ∧
    (∀ (size : Int) (key : String) (value : V), size ≤ 0 →
        (SessionCache.mk size []).cache key value = none) := by
  constructor
  · intro c key value hsize
    exact cache_isSome key value hsize
  · intro size key value hsize
    rw [SessionCache.cache, if_neg (by simp [odMem]),
      evictLoop_none_of_nonpos hsize _ _]

/-- C10 witness: size 2 succeeds, size 0 raises on the empty cache. -/
theorem c10_witness :
    ((SessionCache.mk (V := Nat) 2 []).cache "a" 1).isSome = true ∧
    (SessionCache.mk (V := Nat) 0 []).cache "a" 1 = none :=
  ⟨(c10_cache_total_iff_positive_size).1 (SessionCache.mk 2 []) "a" 1 (by decide),
   (c10_cache_total_iff_positive_size).2 0 "a" 1 (by decide)⟩

end Web3Request

namespace Web3Request

variable {V : Type}

theorem cache_async_session_of_cache_none_evicted {genKey : GenKey}
    (closeOk : V → Bool) {c c2 : SessionCache V} {e : String} {s : V}
    (h : c.cache (genKey e) s = some (c2, none)) :
    cache_async_session genKey closeOk c e s = some (c2, [], true) := by
  simp only [cache_async_session]
  rw [h]

theorem cache_async_session_of_cache_evicted {genKey : GenKey}
    (closeOk : V → Bool) {c c2 : SessionCache V} {e : String} {s : V}
    {ev : List (String × V)}
    (h : c.cache (genKey e) s = some (c2, some ev)) :
    cache_async_session genKey closeOk c e s =
      some (c2, (awaitCloses closeOk (ev.map Prod.snd)).1,
            (awaitCloses closeOk (ev.map Prod.snd)).2) := by
  simp only [cache_async_session]
  rw [h]

end Web3Request

namespace Web3Request

variable {V : Type}

/-- C6: with a capacity-1 async cache, caching session S1 under endpoint
"a" and then session S2 under endpoint "b" (distinct derived keys) awaits
S1's close exactly once (close trace `[S1]`, all closes succeeding), after
which "a" is absent, "b" is present, and the entry for "b" is exactly S2. -/
theorem c6_async_capacity_one_eviction (genKey : GenKey) (S1 S2 : V)
    (hk : genKey "a" ≠ genKey "b") :
    cache_async_session genKey (fun _ => true)
        (SessionCache.mk ((1 : Nat) : Int) []) "a" S1 =
      some (⟨((1 : Nat) : Int), [(genKey "a", S1)]⟩, [], true) ∧
    cache_async_session genKey (fun _ => true)
        ⟨((1 : Nat) : Int), [(genKey "a", S1)]⟩ "b" S2 =
      some (⟨((1 : Nat) : Int), [(genKey "b", S2)]⟩, [S1], true) ∧
    (⟨((1 : Nat) : Int), [(genKey "b", S2)]⟩ : SessionCache V).contains
        (genKey "a") = false ∧
    (⟨((1 : Nat) : Int), [(genKey "b", S2)]⟩ : SessionCache V).contains
        (genKey "b") = true ∧
    (⟨((1 : Nat) : Int), [(genKey "b", S2)]⟩ : SessionCache V).get_cache_entry
        (genKey "b") = some S2 := by
  have hc1 : (SessionCache.mk ((1 : Nat) : Int) []).cache (genKey "a") S1 =
      some (⟨((1 : Nat) : Int), [(genKey "a", S1)]⟩, none) := by
    rw [cache_of_new_below S1 (by simp [odMem]) (by simp)]
    rfl
  have hc2 : (SessionCache.mk ((1 : Nat) : Int) [(genKey "a", S1)]).cache
      (genKey "b") S2 =
      some (⟨((1 : Nat) : Int), [(genKey "b", S2)]⟩, some [(genKey "a", S1)]) := by
    rw [cache_of_new_full S2 (by omega) (by simp [odMem, hk]) (by simp)]
    rfl
  refine ⟨cache_async_session_of_cache_none_evicted _ hc1, ?_, ?_, ?_, ?_⟩
  · rw [cache_async_session_of_cache_evicted _ hc2]
    rfl
  · rw [SessionCache.contains, odMem, if_neg (Ne.symm hk)]
    rfl
  · rw [SessionCache.contains, odMem, if_pos rfl]
  · rw [SessionCache.get_cache_entry, odGet, if_pos rfl]

/-- C6 witness: `genKey` the identity, numbered sessions. -/
theorem c6_witness :
    cache_async_session id (fun _ => true)
        (SessionCache.mk (V := Nat) ((1 : Nat) : Int) []) "a" 10 =
      some (⟨((1 : Nat) : Int), [(id "a", 10)]⟩, [], true) ∧
    cache_async_session id (fun _ => true)
        (⟨((1 : Nat) : Int), [(id "a", 10)]⟩ : SessionCache Nat) "b" 20 =
      some (⟨((1 : Nat) : Int), [(id "b", 20)]⟩, [10], true) ∧
    (⟨((1 : Nat) : Int), [(id "b", 20)]⟩ : SessionCache Nat).contains
        (id "a") = false ∧
    (⟨((1 : Nat) : Int), [(id "b", 20)]⟩ : SessionCache Nat).contains
        (id "b") = true ∧
    (⟨((1 : Nat) : Int), [(id "b", 20)]⟩ : SessionCache Nat).get_cache_entry
        (id "b") = some 20 :=
  c6_async_capacity_one_eviction id 10 20 (by decide)

/-- C7: if an evicted session's close raises during `cache_async_session`,
the error surfaces to the caller (the success flag of the close trace),
but the cache state returned is the post-`cache` state computed before any
close was awaited, for every close-failure pattern alike: the new entry is
resident and every evicted entry is gone from the cache structure. -/
theorem c7_close_failure_state_already_consistent (genKey : GenKey)
    (closeOk : V → Bool) (c c2 : SessionCache V) (e : String) (s : V)
    (ev : List (String × V))
    (hnd : (c._data.map Prod.fst).Nodup)
    (hc : c.cache (genKey e) s = some (c2, some ev)) :
    cache_async_session genKey closeOk c e s =
      some (c2, (awaitCloses closeOk (ev.map Prod.snd)).1,
            (awaitCloses closeOk (ev.map Prod.snd)).2) ∧
    c2.contains (genKey e) = true ∧
    ∀ p ∈ ev, c2.contains p.1 = false := by
  obtain ⟨hm, hs, n, hn1, hnle, hev, hdata, hsize⟩ := cache_evicted_inv hc
  refine ⟨cache_async_session_of_cache_evicted closeOk hc, ?_, ?_⟩
  · rw [SessionCache.contains, hdata]
    exact (odMem_iff_mem_keys _ _).mpr (by simp)
  · intro p hp
    rw [SessionCache.contains, hdata, odMem_false_iff]
    rw [hev] at hp
    intro hmem
    rw [List.map_append] at hmem
    rcases List.mem_append.mp hmem with hmem | hmem
    · have hsplit : c._data.map Prod.fst =
          (c._data.take n).map Prod.fst ++ (c._data.drop n).map Prod.fst := by
        rw [← List.map_append, List.take_append_drop]
      rw [hsplit] at hnd
      exact (List.nodup_append.mp hnd).2.2 (List.mem_map_of_mem Prod.fst hp) hmem
    · simp only [List.map_cons, List.map_nil, List.mem_singleton] at hmem
      rw [odMem_false_iff] at hm
      apply hm
      rw [← hmem]
      exact List.mem_map_of_mem Prod.fst (List.take_subset n c._data hp)

/-- C7 witness: a failing close during an eviction at capacity 1. -/
theorem c7_witness :
    cache_async_session id (fun _ => false)
        (⟨1, [("a", 5)]⟩ : SessionCache Nat) "b" 6 =
      some (⟨1, [("b", 6)]⟩,
            (awaitCloses (fun _ => false)
              (([("a", 5)] : List (String × Nat)).map Prod.snd)).1,
            (awaitCloses (fun _ => false)
              (([("a", 5)] : List (String × Nat)).map Prod.snd)).2) ∧
    (⟨1, [("b", 6)]⟩ : SessionCache Nat).contains (id "b") = true ∧
    (⟨1, [("b", 6)]⟩ : SessionCache Nat).contains "a" = false := by
  have h := c7_close_failure_state_already_consistent id (fun _ => false)
    ⟨1, [("a", 5)]⟩ ⟨1, [("b", 6)]⟩ "b" 6 [("a", 5)] (by decide) (by decide)
  exact ⟨h.1, h.2.1, h.2.2 ("a", 5) (by decide)⟩

end Web3Request

namespace Web3Request

variable {V : Type}

/-- C8: `get_default_http_endpoint` returns the WEB3_HTTP_PROVIDER_URI
environment override verbatim when it is set, and exactly
http://localhost:8545 when it is unset. -/
theorem c8_default_http_endpoint (environ : String → Option String) (v : String) :
    (environ "WEB3_HTTP_PROVIDER_URI" = some v →
      get_default_http_endpoint environ = v) ∧
    (environ "WEB3_HTTP_PROVIDER_URI" = none →
      get_default_http_endpoint environ = "http://localhost:8545") := by
  constructor <;> intro h <;> rw [get_default_http_endpoint, h] <;> rfl

/-- C8 witness: the spec's concrete override value and the unset case. -/
theorem c8_witness :
    get_default_http_endpoint
        (fun nm => if nm = "WEB3_HTTP_PROVIDER_URI"
                   then some "http://node.example:9000" else none) =
      "http://node.example:9000" ∧
    get_default_http_endpoint (fun _ => none) = "http://localhost:8545" :=
  ⟨(c8_default_http_endpoint
      (fun nm => if nm = "WEB3_HTTP_PROVIDER_URI"
                 then some "http://node.example:9000" else none)
      "http://node.example:9000").1 (by decide),
   (c8_default_http_endpoint (fun _ => none) "http://localhost:8545").2 rfl⟩

end Web3Request

namespace Web3Request

variable {V : Type}

theorem get_session_hit_again (genKey : GenKey) (newSession : Nat → V)
    (st : LRU V) (cnt : Nat) (e : String) (st1 : LRU V) (n1 : Nat) (v : V)
    (h : get_session genKey newSession st cnt e = some ((st1, n1), v)) :
    n1 ≤ cnt + 1 ∧
    ∃ st2, get_session genKey newSession st1 n1 e = some ((st2, n1), v) := by
  simp only [get_session] at h
  set A := (if lruContains st (genKey e) = true then (st, cnt)
            else (lruSet st (genKey e) (newSession cnt), cnt + 1)) with hA
  rcases Option.map_eq_some'.mp h with ⟨q, hq, hf⟩
  rw [Prod.mk.injEq, Prod.mk.injEq] at hf
  obtain ⟨⟨hq2, hp2⟩, hq1⟩ := hf
  rw [lruGet] at hq
  rcases Option.map_eq_some'.mp hq with ⟨w, hw, hqw⟩
  have hwv : w = v := by rw [← hqw] at hq1; exact hq1
  have hent : st1.entries = (genKey e, v) ::
      A.1.entries.filter (fun p => decide (p.1 ≠ genKey e)) := by
    rw [← hq2, ← hqw, ← hwv]
  have hcont : lruContains st1 (genKey e) = true := by
    rw [lruContains, hent, odMem, if_pos rfl]
  constructor
  · rw [← hp2, hA]
    by_cases hb : lruContains st (genKey e) = true
    · rw [if_pos hb]
      exact Nat.le_succ cnt
    · rw [if_neg hb]
  · exact ⟨_, by
      simp only [get_session]
      rw [if_pos hcont, lruGet, hent, odGet, if_pos rfl, Option.map_some']
      rfl⟩

end Web3Request

namespace Web3Request

variable {V : Type}

theorem get_async_session_hit_again (genKey : GenKey) (newSession : Nat → V)
    (closeOk : V → Bool) (c : SessionCache V) (cnt : Nat) (e : String)
    (c1 : SessionCache V) (n1 : Nat) (tr : List V) (ok : Bool) (v : V)
    (h : get_async_session genKey newSession closeOk c cnt e =
      some ((c1, n1, tr, ok), v)) :
    n1 ≤ cnt + 1 ∧
    get_async_session genKey newSession closeOk c1 n1 e =
      some ((c1, n1, [], true), v) := by
  simp only [get_async_session] at h
  by_cases hc : c.contains (genKey e) = true
  · rw [if_pos hc] at h
    rcases Option.map_eq_some'.mp h with ⟨w, hw, hf⟩
    simp only [Prod.mk.injEq] at hf
    obtain ⟨⟨hc1, hn1, htr, hok⟩, hv⟩ := hf
    constructor
    · omega
    · simp only [get_async_session]
      rw [if_pos (by rw [← hc1]; exact hc), ← hc1, hw, Option.map_some', hv]
  · rw [if_neg hc] at h
    cases hcs : cache_async_session genKey closeOk c e (newSession cnt) with
    | none => rw [hcs] at h; exact absurd h (by simp)
    | some r =>
      obtain ⟨c2, tr2, ok2⟩ := r
      rw [hcs] at h
      have h2 : (if ok2 = true then
          (c2.get_cache_entry (genKey e)).map
            (fun v => ((c2, cnt + 1, tr2, ok2), v))
        else none) = some ((c1, n1, tr, ok), v) := h
      by_cases hok2 : ok2 = true
      · rw [if_pos hok2] at h2
        rcases Option.map_eq_some'.mp h2 with ⟨w, hw, hf⟩
        simp only [Prod.mk.injEq] at hf
        obtain ⟨⟨hc1, hn1, htr, hok⟩, hv⟩ := hf
        have hcont : c1.contains (genKey e) = true := by
          rw [← hc1, SessionCache.contains]
          exact odMem_of_odGet_some hw
        constructor
        · omega
        · simp only [get_async_session]
          rw [if_pos hcont, ← hc1, hw, Option.map_some', hv]
      · rw [if_neg hok2] at h2
        exact absurd h2 (by simp)

end Web3Request

namespace Web3Request

variable {V : Type}

/-- C9: calling `get_session` (respectively `get_async_session`) twice in
immediate succession for the same endpoint, with no intervening eviction,
returns the identical session handle both times and constructs at most one
new session: the second call is a pure cache hit (construction counter
unchanged, no evictions, no closes). -/
theorem c9_repeated_get_session_idempotent (genKey : GenKey)
    (newSession : Nat → V) (closeOk : V → Bool) :
    (∀ (st : LRU V) (cnt : Nat) (e : String) (st1 : LRU V) (n1 : Nat) (v : V),
        get_session genKey newSession st cnt e = some ((st1, n1), v) →
        n1 ≤ cnt + 1 ∧
        ∃ st2, get_session genKey newSession st1 n1 e = some ((st2, n1), v)) ∧
    (∀ (c : SessionCache V) (cnt : Nat) (e : String) (c1 : SessionCache V)
        (n1 : Nat) (tr : List V) (ok : Bool) (v : V),
        get_async_session genKey newSession closeOk c cnt e =
          some ((c1, n1, tr, ok), v) →
        n1 ≤ cnt + 1 ∧
        get_async_session genKey newSession closeOk c1 n1 e =
          some ((c1, n1, [], true), v)) :=
  ⟨fun st cnt e st1 n1 v h =>
      get_session_hit_again genKey newSession st cnt e st1 n1 v h,
   fun c cnt e c1 n1 tr ok v h =>
      get_async_session_hit_again genKey newSession closeOk c cnt e
        c1 n1 tr ok v h⟩

/-- C9 witness: a fresh sync cache and a fresh capacity-1 async cache,
endpoint "e", after a first call that constructed session 100. -/
theorem c9_witness :
    (1 ≤ 0 + 1 ∧
      ∃ st2, get_session (V := Nat) id (fun n => n + 100)
          ⟨8, [("e", 100)]⟩ 1 "e" = some ((st2, 1), 100)) ∧
    (1 ≤ 0 + 1 ∧
      get_async_session (V := Nat) id (fun n => n + 100) (fun _ => true)
          ⟨1, [("e", 100)]⟩ 1 "e" =
        some ((⟨1, [("e", 100)]⟩, 1, [], true), 100)) :=
  ⟨(c9_repeated_get_session_idempotent id (fun n => n + 100) (fun _ => true)).1
      ⟨8, []⟩ 0 "e" ⟨8, [("e", 100)]⟩ 1 100 (by decide),
   (c9_repeated_get_session_idempotent id (fun n => n + 100) (fun _ => true)).2
      ⟨1, []⟩ 0 "e" ⟨1, [("e", 100)]⟩ 1 [] true 100 (by decide)⟩

end Web3Request
